import Mathlib

/-
Verification of the MT5 data converter's time-series regularization and
merge engine, embedded from:
  src/time_utils.py        (round_time_to_nearest_15min)
  src/data_processor.py    (process_csv, clean_and_convert_balance)
  src/merge_processor.py   (validate_file_compatibility, merge_h1_g2_files)
  streamlit_app.py         (round_time_column)

Instants are modelled as microseconds since an hour-aligned epoch:
Python's datetime is microsecond-granular over a linear (proleptic
Gregorian) timeline, so `replace`/`timedelta` arithmetic is linear
arithmetic on that count.  pandas timestamps are nanosecond-granular,
but every value this program feeds them is microsecond-granular, so the
same representation is exact for both.  Balance values are never
computed with (only copied and tested for missingness, i.e. NaN), so
they are an abstract type `V`, with `none : Option V` standing for NaN.
-/

def microsPerSecond : Nat := 1000000

def microsPerMinute : Nat := 60 * microsPerSecond

def microsPerHour : Nat := 60 * microsPerMinute

/-- The fixed 15-minute cadence, in microseconds. -/
def cadence : Nat := 15 * microsPerMinute

/-- Python `dt.minute` for an instant `t`. -/
def dtMinute (t : Nat) : Nat := t / microsPerMinute % 60

/-- Python `dt.second`. -/
def dtSecond (t : Nat) : Nat := t / microsPerSecond % 60

/-- Python `dt.microsecond`. -/
def dtMicrosecond (t : Nat) : Nat := t % microsPerSecond

/-- Python `dt.replace(minute=0, second=0, microsecond=0)`: the start of
`t`'s hour. -/
def floorHour (t : Nat) : Nat := t - t % microsPerHour

/-- src/time_utils.py, `round_time_to_nearest_15min`:
`rounded_minutes = ((minutes + 7) // 15) * 15`; if that is 60 the result
is `dt.replace(minute=0, second=0, microsecond=0) + timedelta(hours=1)`,
otherwise `dt.replace(minute=rounded_minutes, second=0, microsecond=0)`. -/
def round_time_to_nearest_15min (t : Nat) : Nat :=
  let minutes := dtMinute t
  let rounded_minutes := (minutes + 7) / 15 * 15
  if rounded_minutes = 60 then
    floorHour t + microsPerHour
  else
    floorHour t + rounded_minutes * microsPerMinute

/-- pandas `Series.dt.round("15min")` as used at
src/data_processor.py line 119: round the epoch offset to the nearest
multiple of the cadence, resolving exact halves to the even multiple
(pandas `RoundTo.NEAREST_HALF_EVEN`). -/
def pandasRound15 (t : Nat) : Nat :=
  let q := t / cadence
  let r := t % cadence
  if 2 * r < cadence then q * cadence
  else if cadence < 2 * r then (q + 1) * cadence
  else if q % 2 = 0 then q * cadence else (q + 1) * cadence

/- ---------------------------------------------------------------------
   The regularization pipeline, src/data_processor.py `process_csv`
   lines 112-146, starting from the parsed (DateTime, Balance) rows.
   A row is `(Nat × Option V)`: parsed timestamp and possibly-NaN
   balance (`clean_and_convert_balance` uses `errors="coerce"`, so a
   malformed balance text becomes NaN but the row is kept).
   --------------------------------------------------------------------- -/

/-- The timestamp (key) column of a table. -/
def keysOf {V : Type} (l : List (Nat × V)) : List Nat := l.map Prod.fst

/-- Worker for `dedupByKey`, carrying the set of keys already seen. -/
def dedupGo {V : Type} (seen : List Nat) : List (Nat × V) → List (Nat × V)
  | [] => []
  | r :: rest =>
    if r.1 ∈ seen then dedupGo seen rest
    else r :: dedupGo (r.1 :: seen) rest

/-- pandas `drop_duplicates(subset=["DateTime"])` (default
`keep="first"`): keep the first row of each timestamp, in input order. -/
def dedupByKey {V : Type} (l : List (Nat × V)) : List (Nat × V) := dedupGo [] l

/-- Row comparison by timestamp, the key used by `sort_values`. -/
def keyLE {V : Type} (x y : Nat × V) : Prop := x.1 ≤ y.1

/-- Strict version of `keyLE`; on duplicate-free keys the two sorts
coincide. -/
def keyLT {V : Type} (x y : Nat × V) : Prop := x.1 < y.1

instance {V : Type} : DecidableRel (keyLE (V := V)) :=
  fun x y => Nat.decLe x.1 y.1

instance {V : Type} : IsTotal (Nat × V) keyLE :=
  ⟨fun x y => Nat.le_total x.1 y.1⟩

instance {V : Type} : IsTrans (Nat × V) keyLE :=
  ⟨fun _ _ _ h1 h2 => Nat.le_trans h1 h2⟩

instance {V : Type} : IsAntisymm (Nat × V) keyLT :=
  ⟨fun _ _ h1 h2 => absurd (Nat.lt_trans h1 h2) (Nat.lt_irrefl _)⟩

/-- pandas `sort_values(by="DateTime")`: on the duplicate-free keys this
program sorts, any comparison sort equals this insertion sort. -/
def sortByKey {V : Type} (l : List (Nat × V)) : List (Nat × V) :=
  l.insertionSort keyLE

/-- pandas `Series.ffill`: carry the last non-NaN value forward into
NaN slots; leading NaNs (carry `none`) stay NaN. -/
def ffill {V : Type} (carry : Option V) :
    List (Nat × Option V) → List (Nat × Option V)
  | [] => []
  | r :: rest =>
    match r.2 with
    | some x => (r.1, some x) :: ffill (some x) rest
    | none => (r.1, carry) :: ffill carry rest

/-- pandas `date_range(start, end, freq="15T")` for `start ≤ end`:
`start, start+Δ, …` up to and including `end` when it is reached. -/
def dateRange (start stop : Nat) : List Nat :=
  (List.range ((stop - start) / cadence + 1)).map (fun k => start + k * cadence)

/-- pandas `Series.min()` on the DateTime column (`none` for an empty
column, where pandas yields NaT and `date_range` then raises, making
`process_csv` return None). -/
def listMin : List Nat → Option Nat
  | [] => none
  | x :: xs =>
    match listMin xs with
    | none => some x
    | some m => some (min x m)

/-- pandas `Series.max()`, as `listMin`. -/
def listMax : List Nat → Option Nat
  | [] => none
  | x :: xs =>
    match listMax xs with
    | none => some x
    | some m => some (max x m)

/-- The balance the combined table carries at grid point `g` before
forward-filling: the first series row at `g` if one exists (pandas
lookup on the unique key), else NaN (the gap row concatenated for `g`). -/
def lookupVal {V : Type} (g : Nat) (s : List (Nat × Option V)) : Option V :=
  match s.find? (fun r => r.1 == g) with
  | some r => r.2
  | none => none

/-- Line 119: round every parsed timestamp with pandas
`.dt.round("15min")` (rounding maps NaT to NaT, so doing it before or
after the NaT `dropna` is immaterial; the model starts from the rows
that survive `dropna`). -/
def roundSeries {V : Type} (l : List (Nat × Option V)) : List (Nat × Option V) :=
  l.map (fun r => (pandasRound15 r.1, r.2))

/-- Lines 119-123: round, then `drop_duplicates` on the timestamp. -/
def dedupSeries {V : Type} (l : List (Nat × Option V)) : List (Nat × Option V) :=
  dedupByKey (roundSeries l)

/-- Lines 133-141: the NaN gap rows for the grid points that
`date_range(...).difference(series)` reports missing. -/
def missingRows {V : Type} (grid : List Nat) (s : List (Nat × Option V)) :
    List (Nat × Option V) :=
  (grid.filter (fun g => decide (¬ g ∈ keysOf s))).map (fun g => (g, none))

/-- src/data_processor.py lines 119-146: round and deduplicate the
series, build the complete 15-minute `date_range` over its min/max
timestamps, concatenate the NaN gap rows, sort by timestamp, forward
fill Balance, and drop duplicate timestamps once more.  `none` is the
path where the series is empty (`min`/`max` are NaT, `date_range`
raises, and `process_csv` returns None). -/
def pipelineStep {V : Type} (l : List (Nat × Option V)) :
    Option (List (Nat × Option V)) :=
  let s := dedupSeries l
  match listMin (keysOf s), listMax (keysOf s) with
  | some a, some b =>
    let grid := dateRange a b
    let combined := sortByKey (s ++ missingRows grid s)
    some (dedupByKey (ffill none combined))
  | _, _ => none

/- ---------------------------------------------------------------------
   The merge, src/merge_processor.py.
   --------------------------------------------------------------------- -/

/-- pandas `pd.merge(h1_df, g2_df, left_on="時間", right_on="Time",
how="left")` followed by dropping the duplicated `Time` column: every
left row, in left order, paired with each right row sharing its
timestamp (in right order), or with an absent value when no right row
matches. -/
def leftMerge {A B : Type} (ta : List (Nat × A)) (tb : List (Nat × B)) :
    List (Nat × A × Option B) :=
  ta.flatMap (fun a =>
    match tb.filter (fun b => b.1 == a.1) with
    | [] => [(a.1, a.2, none)]
    | bs => bs.map (fun b => (a.1, a.2, some b.2)))

/-- src/merge_processor.py `merge_h1_g2_files` (lines 80-187).  The two
filename arguments are exactly the data the source function receives
about the files' names; the source uses them only to locate the files
on disk.  The `Option` table arguments model every early-exit before
the join — missing file, missing 時間/Time column, datetime parse
failure — each of which returns None in the source.  After the join the
source drops the duplicated key column, sorts by 時間, re-serializes the
key (a display step, immaterial to row identity here), and returns None
when the result has zero rows.  Note the body never consults
`validate_file_compatibility`, mirroring the source, where that
function is defined (and imported by streamlit_app.py) but never
called. -/
def merge_h1_g2_files {A B : Type} (h1_filename g2_filename : String)
    (h1 : Option (List (Nat × A))) (g2 : Option (List (Nat × B))) :
    Option (List (Nat × A × Option B)) :=
  let _ := h1_filename
  let _ := g2_filename
  match h1, g2 with
  | some ta, some tb =>
    let merged := sortByKey (leftMerge ta tb)
    if merged.length = 0 then none else some merged
  | _, _ => none

/- ---------------------------------------------------------------------
   Filename compatibility check, src/merge_processor.py lines 27-57:
   re.search(r"(?:H1|G2).*?(CT\d+)_(Pd\d+)", filename).
   Filenames contain no newlines (so `.` is any character) and ASCII
   digits (so `\d` is Char.isDigit).
   --------------------------------------------------------------------- -/

/-- One attempt to match the tail `(CT\d+)_(Pd\d+)` of the pattern at
the head of the text.  `\d+` is greedy; backtracking it can never help,
because the character after a shorter digit run would still be a digit
where `_` (or the pattern end) is required.  So the groups are `CT`
plus the maximal digit run, then `_`, then `Pd` plus the maximal digit
run, each run non-empty. -/
def matchCTPdHere : List Char → Option (String × String)
  | 'C' :: 'T' :: rest =>
    let ds := rest.takeWhile Char.isDigit
    if ds.isEmpty then none
    else
      match rest.dropWhile Char.isDigit with
      | '_' :: 'P' :: 'd' :: rest2 =>
        let ds2 := rest2.takeWhile Char.isDigit
        if ds2.isEmpty then none
        else some (String.mk ('C' :: 'T' :: ds), String.mk ('P' :: 'd' :: ds2))
      | _ => none
  | _ => none

/-- The lazy `.*?` followed by the groups: the first position at or
after the current one where the group part matches. -/
def findCTPd : List Char → Option (String × String)
  | [] => none
  | c :: rest =>
    match matchCTPdHere (c :: rest) with
    | some r => some r
    | none => findCTPd rest

/-- `re.search`: try each start position left to right; at a start
position the pattern requires the literal `H1` or `G2` there, then the
lazy gap and the two groups. -/
def searchIdent : List Char → Option (String × String)
  | [] => none
  | [_] => none
  | c1 :: c2 :: rest =>
    if (c1 = 'H' ∧ c2 = '1') ∨ (c1 = 'G' ∧ c2 = '2') then
      match findCTPd rest with
      | some r => some r
      | none => searchIdent (c2 :: rest)
    else searchIdent (c2 :: rest)

/-- src/merge_processor.py `extract_identifiers` (inner function of
`validate_file_compatibility`): the `(CT…, Pd…)` capture pair, or
`None` when the pattern does not match. -/
def extract_identifiers (filename : String) : Option (String × String) :=
  searchIdent filename.data

/-- src/merge_processor.py `validate_file_compatibility`: False when
either extraction fails or the two pairs differ, True otherwise. -/
def validate_file_compatibility (h1_filename g2_filename : String) : Bool :=
  match extract_identifiers h1_filename, extract_identifiers g2_filename with
  | some h1_ids, some g2_ids => h1_ids == g2_ids
  | _, _ => false

/- ---------------------------------------------------------------------
   streamlit_app.py `round_time_column` (lines 100-128).  A time cell is
   its separator layout family ('.'-separated vs '-'-separated text)
   plus the instant it denotes; all three parse attempts of the source
   yield that instant, and NaN cells are left untouched and play no part
   in the claim, so the model carries the non-NaN cells.
   --------------------------------------------------------------------- -/

inductive SepStyle where
  | dot
  | dash
deriving DecidableEq

structure TimeText where
  sep : SepStyle
  instant : Nat
deriving DecidableEq

/-- streamlit_app.py `round_time_column`: parse the cells, round each
with `round_time_to_nearest_15min`, then re-serialize *every* cell with
the format chosen by inspecting only the first cell
(`if "." in str(result_df.loc[mask, "時間"].iloc[0])`). -/
def round_time_column (cells : List TimeText) : List TimeText :=
  match cells with
  | [] => []
  | c0 :: _ =>
    cells.map (fun c => ⟨c0.sep, round_time_to_nearest_15min c.instant⟩)

/-- The value `ffill`'s carry holds after scanning the listed balances
starting from carry `c`: the last non-NaN among them, else `c`. -/
def lastSome {V : Type} (c : Option V) (vs : List (Option V)) : Option V :=
  vs.foldl (fun acc v => match v with | some x => some x | none => acc) c

/- =====================================================================
   Theorems.
   ===================================================================== -/

/-- C2: for every instant, `round_time_to_nearest_15min` returns an
instant whose minute is one of 0/15/30/45 with zero seconds and
microseconds; minutes with `m % 15 ≤ 7` round down to the enclosing
quarter boundary, minutes with `m % 15 ≥ 8` round up to the next one,
and minutes ≥ 53 roll over to the next hour at minute 0. -/
theorem round_time_spec (t : Nat) :
    (dtMinute (round_time_to_nearest_15min t) = 0 ∨
     dtMinute (round_time_to_nearest_15min t) = 15 ∨
     dtMinute (round_time_to_nearest_15min t) = 30 ∨
     dtMinute (round_time_to_nearest_15min t) = 45) ∧
    dtSecond (round_time_to_nearest_15min t) = 0 ∧
    dtMicrosecond (round_time_to_nearest_15min t) = 0 ∧
    (dtMinute t % 15 ≤ 7 →
      round_time_to_nearest_15min t =
        floorHour t + (dtMinute t - dtMinute t % 15) * microsPerMinute) ∧
    (8 ≤ dtMinute t % 15 →
      round_time_to_nearest_15min t =
        floorHour t + (dtMinute t - dtMinute t % 15 + 15) * microsPerMinute) ∧
    (53 ≤ dtMinute t →
      round_time_to_nearest_15min t = floorHour t + microsPerHour) := by
  simp only [round_time_to_nearest_15min, dtMinute, dtSecond, dtMicrosecond,
    floorHour, microsPerMinute, microsPerSecond, microsPerHour]
  split <;> omega

/-- Witness for `round_time_spec` at 10:52 (the code rounds it down to
10:45, minute 52 having `52 % 15 = 7`). -/
theorem round_time_spec_witness :
    dtMinute (round_time_to_nearest_15min 39120000000) = 45 ∧
    round_time_to_nearest_15min 39120000000 = 38700000000 := by
  have h := (round_time_spec 39120000000).2.2.2.1 (by decide)
  refine ⟨?_, ?_⟩ <;> rw [h] <;> decide

/-- C3 counterexample: at 10:07:31 the pipeline's pandas rounding goes
up to 10:15 (the instant is 451 s past the boundary, more than half of
the 900 s cadence) while the Timestamp Normalizer's
`round_time_to_nearest_15min` inspects only the minute (7, which rounds
down) and returns 10:00 — so the two routines are not pointwise equal,
and in particular do not agree at `m % 15 == 7` regardless of seconds. -/
theorem pandas_round_diverges :
    dtMinute 36451000000 % 15 = 7 ∧
    dtSecond 36451000000 = 31 ∧
    pandasRound15 36451000000 = 36900000000 ∧
    round_time_to_nearest_15min 36451000000 = 36000000000 ∧
    pandasRound15 36451000000 ≠ round_time_to_nearest_15min 36451000000 := by
  decide

/-- C3 amended: the pandas `.dt.round("15min")` step of `process_csv`
and `round_time_to_nearest_15min` agree on every instant whose seconds
and microseconds are zero (on such instants no exact tie can occur and
both reduce to the `m % 15 ≤ 7` rule); with a nonzero seconds component
they can differ. -/
theorem pandas_round_agrees_on_whole_minutes (t : Nat)
    (hs : dtSecond t = 0) (hu : dtMicrosecond t = 0) :
    pandasRound15 t = round_time_to_nearest_15min t := by
  simp only [pandasRound15, round_time_to_nearest_15min, dtMinute, dtSecond,
    dtMicrosecond, floorHour, cadence, microsPerMinute, microsPerSecond,
    microsPerHour] at *
  split_ifs <;> omega

/-- Witness for `pandas_round_agrees_on_whole_minutes` at 10:07:00. -/
theorem pandas_round_agrees_on_whole_minutes_witness :
    dtSecond 36420000000 = 0 ∧ dtMicrosecond 36420000000 = 0 ∧
    pandasRound15 36420000000 = round_time_to_nearest_15min 36420000000 :=
  ⟨by decide, by decide,
    pandas_round_agrees_on_whole_minutes 36420000000 (by decide) (by decide)⟩

/- Helper lemmas about `dedupByKey`. -/

theorem dedupGo_subset {V : Type} (seen : List Nat) (l : List (Nat × V)) :
    ∀ r ∈ dedupGo seen l, r ∈ l := by
  induction l generalizing seen with
  | nil => simp [dedupGo]
  | cons r rest ih =>
    intro x hx
    simp only [dedupGo] at hx
    split at hx
    · exact List.mem_cons_of_mem _ (ih seen x hx)
    · rcases List.mem_cons.mp hx with h | h
      · exact h ▸ List.mem_cons_self _ _
      · exact List.mem_cons_of_mem _ (ih _ x h)

theorem dedupGo_key_notin {V : Type} (seen : List Nat) (l : List (Nat × V)) :
    ∀ k ∈ keysOf (dedupGo seen l), ¬ k ∈ seen := by
  induction l generalizing seen with
  | nil => simp [dedupGo, keysOf]
  | cons r rest ih =>
    intro k hk
    simp only [dedupGo] at hk
    split at hk
    · exact ih seen k hk
    · simp only [keysOf, List.map_cons, List.mem_cons] at hk
      rcases hk with h | h
      · subst h; assumption
      · have := ih (r.1 :: seen) k h
        exact fun hmem => this (List.mem_cons_of_mem _ hmem)

theorem keysOf_dedupGo_nodup {V : Type} (seen : List Nat) (l : List (Nat × V)) :
    (keysOf (dedupGo seen l)).Nodup := by
  induction l generalizing seen with
  | nil => simp [dedupGo, keysOf]
  | cons r rest ih =>
    simp only [dedupGo]
    split
    · exact ih seen
    · simp only [keysOf, List.map_cons, List.nodup_cons]
      refine ⟨fun hmem => ?_, ih (r.1 :: seen)⟩
      exact dedupGo_key_notin (r.1 :: seen) rest r.1 hmem (List.mem_cons_self _ _)

theorem keysOf_dedupByKey_nodup {V : Type} (l : List (Nat × V)) :
    (keysOf (dedupByKey l)).Nodup :=
  keysOf_dedupGo_nodup [] l

theorem dedupByKey_subset {V : Type} (l : List (Nat × V)) :
    ∀ r ∈ dedupByKey l, r ∈ l :=
  dedupGo_subset [] l

theorem dedupGo_eq_self {V : Type} (seen : List Nat) (l : List (Nat × V))
    (hnd : (keysOf l).Nodup) (hdisj : ∀ k ∈ keysOf l, ¬ k ∈ seen) :
    dedupGo seen l = l := by
  induction l generalizing seen with
  | nil => simp [dedupGo]
  | cons r rest ih =>
    simp only [keysOf, List.map_cons, List.nodup_cons] at hnd
    have hr : ¬ r.1 ∈ seen :=
      hdisj r.1 (by simp [keysOf])
    simp only [dedupGo, if_neg hr]
    congr 1
    refine ih (r.1 :: seen) hnd.2 (fun k hk => ?_)
    intro hmem
    rcases List.mem_cons.mp hmem with h | h
    · exact hnd.1 (h ▸ hk)
    · refine hdisj k ?_ h
      simp only [keysOf, List.map_cons, List.mem_cons]
      exact Or.inr hk

theorem dedupByKey_eq_self {V : Type} (l : List (Nat × V))
    (hnd : (keysOf l).Nodup) : dedupByKey l = l :=
  dedupGo_eq_self [] l hnd (by simp)

theorem dedupGo_find? {V : Type} (seen : List Nat) (l : List (Nat × V))
    (t : Nat) (ht : ¬ t ∈ seen) :
    (dedupGo seen l).find? (fun r => r.1 == t) = l.find? (fun r => r.1 == t) := by
  induction l generalizing seen with
  | nil => simp [dedupGo]
  | cons r rest ih =>
    simp only [dedupGo]
    split
    · have hne : (r.1 == t) = false := by
        simp only [beq_eq_false_iff_ne, ne_eq]
        intro h; exact ht (h ▸ (by assumption))
      rw [List.find?_cons_of_neg _ (by simp [hne]), ih seen ht]
    · by_cases hrt : r.1 = t
      · rw [List.find?_cons_of_pos _ (by simp [hrt]),
          List.find?_cons_of_pos _ (by simp [hrt])]
      · rw [List.find?_cons_of_neg _ (by simp [hrt]),
          List.find?_cons_of_neg _ (by simp [hrt])]
        exact ih (r.1 :: seen) (by
          intro hmem
          rcases List.mem_cons.mp hmem with h | h
          · exact hrt h.symm
          · exact ht h)

theorem dedupByKey_find? {V : Type} (l : List (Nat × V)) (t : Nat) :
    (dedupByKey l).find? (fun r => r.1 == t) = l.find? (fun r => r.1 == t) :=
  dedupGo_find? [] l t (by simp)

/- Helper lemmas about `ffill` and `lastSome`. -/

theorem ffill_length {V : Type} (c : Option V) (l : List (Nat × Option V)) :
    (ffill c l).length = l.length := by
  induction l generalizing c with
  | nil => rfl
  | cons r rest ih =>
    rcases r with ⟨t, v⟩
    cases v <;> simp [ffill, ih]

theorem keysOf_ffill {V : Type} (c : Option V) (l : List (Nat × Option V)) :
    keysOf (ffill c l) = keysOf l := by
  induction l generalizing c with
  | nil => rfl
  | cons r rest ih =>
    rcases r with ⟨t, v⟩
    cases v <;> simp [ffill, keysOf, ih] <;> exact (ih _)

theorem lastSome_cons {V : Type} (c : Option V) (v : Option V)
    (vs : List (Option V)) :
    lastSome c (v :: vs) =
      lastSome (match v with | some x => some x | none => c) vs := by
  simp [lastSome]

theorem lastSome_all_none {V : Type} (c : Option V) (vs : List (Option V))
    (h : ∀ v ∈ vs, v = none) : lastSome c vs = c := by
  induction vs with
  | nil => rfl
  | cons v rest ih =>
    rw [lastSome_cons, h v (List.mem_cons_self _ _)]
    exact ih (fun w hw => h w (List.mem_cons_of_mem _ hw))

theorem lastSome_last {V : Type} (vs : List (Option V)) (c : Option V)
    (j : Nat) (x : V) (hj : vs[j]? = some (some x))
    (hafter : ∀ k, j < k → ∀ w, vs[k]? = some w → w = none) :
    lastSome c vs = some x := by
  induction vs generalizing c j with
  | nil => simp at hj
  | cons v rest ih =>
    cases j with
    | zero =>
      simp only [List.getElem?_cons_zero, Option.some.injEq] at hj
      subst hj
      rw [lastSome_cons]
      refine lastSome_all_none _ _ (fun w hw => ?_)
      rcases List.mem_iff_getElem?.mp hw with ⟨k, hk⟩
      exact hafter (k + 1) (Nat.succ_pos _) w (by simpa using hk)
    | succ j =>
      rw [lastSome_cons]
      refine ih _ j (by simpa using hj) (fun k hk w hw => ?_)
      exact hafter (k + 1) (by omega) w (by simpa using hw)

theorem ffill_getElem? {V : Type} (l : List (Nat × Option V)) (c : Option V)
    (i : Nat) :
    (ffill c l)[i]? = (l[i]?).map (fun r =>
      (r.1, match r.2 with
            | some x => some x
            | none => lastSome c ((l.take i).map Prod.snd))) := by
  induction l generalizing c i with
  | nil => simp [ffill]
  | cons r rest ih =>
    rcases r with ⟨t, v⟩
    cases v with
    | some x =>
      cases i with
      | zero => simp [ffill]
      | succ i => simp [ffill, ih, lastSome_cons]
    | none =>
      cases i with
      | zero => simp [ffill, lastSome]
      | succ i => simp [ffill, ih, lastSome_cons]

theorem ffill_idem {V : Type} (c : Option V) (l : List (Nat × Option V)) :
    ffill c (ffill c l) = ffill c l := by
  induction l generalizing c with
  | nil => rfl
  | cons r rest ih =>
    rcases r with ⟨t, v⟩
    cases v with
    | some x => simp [ffill, ih]
    | none =>
      cases c with
      | none => simp [ffill, ih]
      | some y => simp [ffill, ih]

/- Helper lemmas about `listMin` and `listMax`. -/


theorem listMin_eq_none {xs : List Nat} : listMin xs = none ↔ xs = [] := by
  cases xs with
  | nil => simp [listMin]
  | cons x rest =>
    simp only [listMin]
    rcases listMin rest with - | m <;> simp

theorem listMin_mem {xs : List Nat} {a : Nat} (h : listMin xs = some a) :
    a ∈ xs := by
  induction xs generalizing a with
  | nil => simp [listMin] at h
  | cons x rest ih =>
    simp only [listMin] at h
    rcases hm : listMin rest with - | m <;> rw [hm] at h <;>
      simp only [Option.some.injEq] at h
    · simp [h]
    · rcases Nat.le_total x m with hle | hle
      · rw [min_eq_left hle] at h
        simp [h]
      · rw [min_eq_right hle] at h
        exact List.mem_cons_of_mem _ (ih (h ▸ hm))

theorem listMin_le {xs : List Nat} {a : Nat} (h : listMin xs = some a) :
    ∀ x ∈ xs, a ≤ x := by
  induction xs generalizing a with
  | nil => simp [listMin] at h
  | cons x rest ih =>
    intro y hy
    simp only [listMin] at h
    rcases hm : listMin rest with - | m <;> rw [hm] at h <;>
      simp only [Option.some.injEq] at h
    · have : rest = [] := listMin_eq_none.mp hm
      subst this
      rcases List.mem_cons.mp hy with rfl | hy'
      · omega
      · simp at hy'
    · rcases List.mem_cons.mp hy with rfl | hy'
      · omega
      · have := ih hm y hy'
        omega

theorem listMin_isSome {xs : List Nat} (h : xs ≠ []) :
    ∃ a, listMin xs = some a := by
  cases hm : listMin xs with
  | none => exact absurd (listMin_eq_none.mp hm) h
  | some a => exact ⟨a, rfl⟩

theorem listMin_eq_of {xs : List Nat} {a : Nat} (hmem : a ∈ xs)
    (hle : ∀ x ∈ xs, a ≤ x) : listMin xs = some a := by
  rcases listMin_isSome (List.ne_nil_of_mem hmem) with ⟨b, hb⟩
  have h1 : b ≤ a := listMin_le hb a hmem
  have h2 : a ≤ b := hle b (listMin_mem hb)
  rw [hb, Nat.le_antisymm h1 h2]

theorem listMax_eq_none {xs : List Nat} : listMax xs = none ↔ xs = [] := by
  cases xs with
  | nil => simp [listMax]
  | cons x rest =>
    simp only [listMax]
    rcases listMax rest with - | m <;> simp

theorem listMax_mem {xs : List Nat} {a : Nat} (h : listMax xs = some a) :
    a ∈ xs := by
  induction xs generalizing a with
  | nil => simp [listMax] at h
  | cons x rest ih =>
    simp only [listMax] at h
    rcases hm : listMax rest with - | m <;> rw [hm] at h <;>
      simp only [Option.some.injEq] at h
    · simp [h]
    · rcases Nat.le_total x m with hle | hle
      · rw [max_eq_right hle] at h
        exact List.mem_cons_of_mem _ (ih (h ▸ hm))
      · rw [max_eq_left hle] at h
        simp [h]

theorem listMax_ge {xs : List Nat} {a : Nat} (h : listMax xs = some a) :
    ∀ x ∈ xs, x ≤ a := by
  induction xs generalizing a with
  | nil => simp [listMax] at h
  | cons x rest ih =>
    intro y hy
    simp only [listMax] at h
    rcases hm : listMax rest with - | m <;> rw [hm] at h <;>
      simp only [Option.some.injEq] at h
    · have : rest = [] := listMax_eq_none.mp hm
      subst this
      rcases List.mem_cons.mp hy with rfl | hy'
      · omega
      · simp at hy'
    · rcases List.mem_cons.mp hy with rfl | hy'
      · omega
      · have := ih hm y hy'
        omega

theorem listMax_isSome {xs : List Nat} (h : xs ≠ []) :
    ∃ a, listMax xs = some a := by
  cases hm : listMax xs with
  | none => exact absurd (listMax_eq_none.mp hm) h
  | some a => exact ⟨a, rfl⟩

theorem listMax_eq_of {xs : List Nat} {a : Nat} (hmem : a ∈ xs)
    (hge : ∀ x ∈ xs, x ≤ a) : listMax xs = some a := by
  rcases listMax_isSome (List.ne_nil_of_mem hmem) with ⟨b, hb⟩
  have h1 : b ≤ a := hge b (listMax_mem hb)
  have h2 : a ≤ b := listMax_ge hb a hmem
  rw [hb, Nat.le_antisymm h2 h1]

/- Helper lemmas about `dateRange`. -/

theorem dateRange_length (a b : Nat) :
    (dateRange a b).length = (b - a) / cadence + 1 := by
  simp [dateRange]

theorem dateRange_getElem? {a b i : Nat} (hi : i < (b - a) / cadence + 1) :
    (dateRange a b)[i]? = some (a + i * cadence) := by
  simp [dateRange, List.getElem?_map, List.getElem?_range hi]

theorem mem_dateRange {a b g : Nat} :
    g ∈ dateRange a b ↔ ∃ k, k ≤ (b - a) / cadence ∧ g = a + k * cadence := by
  simp only [dateRange, List.mem_map, List.mem_range]
  constructor
  · rintro ⟨k, hk, rfl⟩
    exact ⟨k, by omega, rfl⟩
  · rintro ⟨k, hk, rfl⟩
    exact ⟨k, by omega, rfl⟩

theorem mem_dateRange_of {a b g : Nat} (h1 : a ≤ g) (h2 : g ≤ b)
    (h3 : cadence ∣ (g - a)) : g ∈ dateRange a b := by
  refine mem_dateRange.mpr ⟨(g - a) / cadence, Nat.div_le_div_right (by omega), ?_⟩
  have := Nat.div_mul_cancel h3
  omega

theorem dateRange_pairwise_lt (a b : Nat) :
    (dateRange a b).Pairwise (· < ·) := by
  refine List.Pairwise.map _ (fun i j (hij : i < j) => ?_)
    (List.pairwise_lt_range _)
  have hc : 0 < cadence := by decide
  have h3 : (i + 1) * cadence ≤ j * cadence :=
    Nat.mul_le_mul_right _ (by omega)
  rw [Nat.succ_mul] at h3
  omega

theorem dateRange_nodup (a b : Nat) : (dateRange a b).Nodup :=
  (dateRange_pairwise_lt a b).imp Nat.ne_of_lt

theorem dateRange_mem_self (a b : Nat) : a ∈ dateRange a b :=
  mem_dateRange.mpr ⟨0, Nat.zero_le _, by omega⟩

theorem dateRange_listMin (a b : Nat) : listMin (dateRange a b) = some a := by
  refine listMin_eq_of (dateRange_mem_self a b) (fun x hx => ?_)
  rcases mem_dateRange.mp hx with ⟨k, -, rfl⟩
  omega

theorem dateRange_listMax {a b : Nat} (hab : a ≤ b)
    (hdvd : cadence ∣ (b - a)) : listMax (dateRange a b) = some b := by
  refine listMax_eq_of (mem_dateRange_of hab (Nat.le_refl _) hdvd)
    (fun x hx => ?_)
  rcases mem_dateRange.mp hx with ⟨k, hk, rfl⟩
  have h1 : k * cadence ≤ (b - a) / cadence * cadence :=
    Nat.mul_le_mul_right _ hk
  have h2 : (b - a) / cadence * cadence = b - a := Nat.div_mul_cancel hdvd
  omega

/- Helper lemmas about `sortByKey` and sortedness. -/

theorem sortByKey_perm {V : Type} (l : List (Nat × V)) : (sortByKey l).Perm l :=
  List.perm_insertionSort keyLE l

theorem sortByKey_sorted_le {V : Type} (l : List (Nat × V)) :
    (sortByKey l).Sorted keyLE :=
  List.sorted_insertionSort keyLE l

theorem pairwise_keyLT_of_le_nodup {V : Type} {l : List (Nat × V)}
    (hle : l.Sorted keyLE) (hnd : (keysOf l).Nodup) : l.Sorted keyLT := by
  have hne : l.Pairwise (fun x y : Nat × V => x.1 ≠ y.1) := by
    rw [keysOf, List.Nodup, List.pairwise_map] at hnd
    exact hnd
  exact (hle.and hne).imp (fun h => Nat.lt_of_le_of_ne h.1 h.2)

theorem keysOf_nodup_of_pairwise_keyLT {V : Type} {l : List (Nat × V)}
    (h : l.Sorted keyLT) : (keysOf l).Nodup := by
  rw [keysOf, List.Nodup, List.pairwise_map]
  exact h.imp (fun hlt => Nat.ne_of_lt hlt)

theorem eq_of_perm_of_sorted_keyLT {V : Type} {l₁ l₂ : List (Nat × V)}
    (hp : l₁.Perm l₂) (h1 : l₁.Sorted keyLT) (h2 : l₂.Sorted keyLT) : l₁ = l₂ :=
  List.eq_of_perm_of_sorted hp h1 h2

theorem sortByKey_eq_self {V : Type} {l : List (Nat × V)}
    (h : l.Sorted keyLT) : sortByKey l = l := by
  have hnd : (keysOf l).Nodup := keysOf_nodup_of_pairwise_keyLT h
  have hnd' : (keysOf (sortByKey l)).Nodup := by
    have : (keysOf (sortByKey l)).Perm (keysOf l) := (sortByKey_perm l).map Prod.fst
    exact this.nodup_iff.mpr hnd
  exact eq_of_perm_of_sorted_keyLT (sortByKey_perm l)
    (pairwise_keyLT_of_le_nodup (sortByKey_sorted_le l) hnd') h

/- Helper lemmas about key lookup. -/

theorem find?_key_mem {V : Type} {s : List (Nat × V)} {g : Nat}
    (h : g ∈ keysOf s) :
    ∃ r, s.find? (fun r => r.1 == g) = some r ∧ r ∈ s ∧ r.1 = g := by
  rcases List.mem_map.mp h with ⟨r, hrs, hrg⟩
  have hsome : (s.find? (fun r => r.1 == g)).isSome :=
    List.find?_isSome.mpr ⟨r, hrs, by simp [hrg]⟩
  rcases Option.isSome_iff_exists.mp hsome with ⟨r₀, hr₀⟩
  refine ⟨r₀, hr₀, List.mem_of_find?_eq_some hr₀, ?_⟩
  have := List.find?_some hr₀
  simpa using this

theorem find?_key_eq_none {V : Type} {s : List (Nat × V)} {g : Nat}
    (h : ¬ g ∈ keysOf s) : s.find? (fun r => r.1 == g) = none := by
  refine List.find?_eq_none.mpr (fun r hr => ?_)
  simp only [beq_iff_eq]
  intro hrg
  exact h (List.mem_map.mpr ⟨r, hr, hrg⟩)

theorem lookupVal_eq_none {V : Type} {s : List (Nat × Option V)} {g : Nat}
    (h : ¬ g ∈ keysOf s) : lookupVal g s = none := by
  rw [lookupVal, find?_key_eq_none h]

theorem lookupVal_of_mem {V : Type} {s : List (Nat × Option V)} {g : Nat}
    (h : g ∈ keysOf s) :
    ∃ r, r ∈ s ∧ r.1 = g ∧ lookupVal g s = r.2 := by
  rcases find?_key_mem h with ⟨r₀, hfind, hmem, hkey⟩
  exact ⟨r₀, hmem, hkey, by rw [lookupVal, hfind]⟩

/- The combined (series ++ NaN gap rows) table is a permutation of the
grid aligned with the series by key lookup. -/

theorem combined_perm_aligned {V : Type} :
    ∀ (grid : List Nat) (s : List (Nat × Option V)),
      (keysOf s).Nodup → grid.Nodup → (∀ r ∈ s, r.1 ∈ grid) →
      (s ++ missingRows grid s).Perm
        (grid.map (fun g => (g, lookupVal g s))) := by
  intro grid
  induction grid with
  | nil =>
    intro s _ _ hmem
    cases s with
    | nil => simp [missingRows]
    | cons r rest => exact absurd (hmem r (List.mem_cons_self _ _)) (by simp)
  | cons g grid' ih =>
    intro s hnd hgnd hmem
    have hgnd' : grid'.Nodup := (List.nodup_cons.mp hgnd).2
    have hgmem : ¬ g ∈ grid' := (List.nodup_cons.mp hgnd).1
    by_cases hg : g ∈ keysOf s
    · rcases find?_key_mem hg with ⟨r₀, hfind, hr₀s, hr₀g⟩
      rcases List.append_of_mem hr₀s with ⟨l₁, l₂, hsplit⟩
      have perm1 : s.Perm (r₀ :: (l₁ ++ l₂)) := by
        rw [hsplit]; exact List.perm_middle
      have hsub : ∀ r ∈ l₁ ++ l₂, r ∈ s := by
        intro r hr
        rw [hsplit]
        rcases List.mem_append.mp hr with h | h
        · exact List.mem_append_left _ h
        · exact List.mem_append_right _ (List.mem_cons_of_mem _ h)
      have hkeysperm : (keysOf s).Perm (r₀.1 :: keysOf (l₁ ++ l₂)) := by
        simpa [keysOf] using perm1.map Prod.fst
      have hnds' := hkeysperm.nodup_iff.mp hnd
      have hg' : ¬ g ∈ keysOf (l₁ ++ l₂) := by
        have h1 := (List.nodup_cons.mp hnds').1
        rw [hr₀g] at h1
        exact h1
      have hnd' : (keysOf (l₁ ++ l₂)).Nodup := (List.nodup_cons.mp hnds').2
      have hmem' : ∀ r ∈ l₁ ++ l₂, r.1 ∈ grid' := by
        intro r hr
        have hkey : r.1 ∈ keysOf (l₁ ++ l₂) := List.mem_map.mpr ⟨r, hr, rfl⟩
        rcases List.mem_cons.mp (hmem r (hsub r hr)) with h | h
        · exact absurd (h ▸ hkey) hg'
        · exact h
      have hfindeq : ∀ x, x ≠ g →
          (l₁ ++ l₂).find? (fun r => r.1 == x) =
            s.find? (fun r => r.1 == x) := by
        intro x hx
        have hpx : ((r₀.1 == x) : Bool) = false := by
          simp only [hr₀g, beq_eq_false_iff_ne, ne_eq]
          exact fun hEq => hx hEq.symm
        rw [hsplit, List.find?_append, List.find?_append,
          List.find?_cons_of_neg _ (by simp [hpx])]
      have hmemiff : ∀ x, x ≠ g →
          (x ∈ keysOf (l₁ ++ l₂) ↔ x ∈ keysOf s) := by
        intro x hx
        constructor
        · intro hxm
          rcases List.mem_map.mp hxm with ⟨r, hr, hrx⟩
          exact List.mem_map.mpr ⟨r, hsub r hr, hrx⟩
        · intro hxs
          rcases find?_key_mem hxs with ⟨r, hrf, hrs, hrx⟩
          have hrf' : (l₁ ++ l₂).find? (fun r => r.1 == x) = some r := by
            rw [hfindeq x hx]
            exact hrf
          exact List.mem_map.mpr ⟨r, List.mem_of_find?_eq_some hrf', hrx⟩
      have hmiss : missingRows (g :: grid') s = missingRows grid' s := by
        simp [missingRows, List.filter_cons, hg]
      have hmiss' : missingRows grid' s = missingRows grid' (l₁ ++ l₂) := by
        rw [missingRows, missingRows]
        congr 1
        refine List.filter_congr (fun x hx => ?_)
        have hxg : x ≠ g := fun hEq => hgmem (hEq ▸ hx)
        simp only [decide_eq_decide]
        exact not_congr (hmemiff x hxg).symm
      have hr₀pair : (g, lookupVal g s) = r₀ := by
        have hv : lookupVal g s = r₀.2 := by rw [lookupVal, hfind]
        rw [hv, ← hr₀g]
      have hmapeq : grid'.map (fun x => (x, lookupVal x s)) =
          grid'.map (fun x => (x, lookupVal x (l₁ ++ l₂))) := by
        refine List.map_congr_left (fun x hx => ?_)
        have hxg : x ≠ g := fun hEq => hgmem (hEq ▸ hx)
        rw [lookupVal, lookupVal, hfindeq x hxg]
      rw [hmiss, hmiss', List.map_cons, hr₀pair, hmapeq]
      exact (perm1.append_right _).trans
        ((ih (l₁ ++ l₂) hnd' hgnd' hmem').cons r₀)
    · have hmem' : ∀ r ∈ s, r.1 ∈ grid' := by
        intro r hr
        rcases List.mem_cons.mp (hmem r hr) with h | h
        · exact absurd (List.mem_map.mpr ⟨r, hr, h⟩) (h ▸ hg)
        · exact h
      have hmiss : missingRows (g :: grid') s =
          (g, (none : Option V)) :: missingRows grid' s := by
        simp [missingRows, List.filter_cons, hg]
      rw [hmiss, List.map_cons, lookupVal_eq_none hg]
      exact List.perm_middle.trans ((ih s hnd hgnd' hmem').cons _)

theorem keysOf_map_pair {V : Type} (grid : List Nat) (f : Nat → Option V) :
    keysOf (grid.map (fun g => (g, f g))) = grid := by
  simp only [keysOf, List.map_map]
  exact List.map_id grid

theorem aligned_sorted {V : Type} (grid : List Nat) (f : Nat → Option V)
    (hg : grid.Pairwise (· < ·)) :
    (grid.map (fun g => (g, f g))).Sorted keyLT := by
  rw [List.Sorted, List.pairwise_map]
  exact hg

theorem combined_sorted_eq_aligned {V : Type} (grid : List Nat)
    (s : List (Nat × Option V)) (hs : (keysOf s).Nodup)
    (hg : grid.Pairwise (· < ·)) (hmem : ∀ r ∈ s, r.1 ∈ grid) :
    sortByKey (s ++ missingRows grid s) =
      grid.map (fun g => (g, lookupVal g s)) := by
  have hgnd : grid.Nodup := hg.imp Nat.ne_of_lt
  have hperm2 : (sortByKey (s ++ missingRows grid s)).Perm
      (grid.map (fun g => (g, lookupVal g s))) :=
    (sortByKey_perm _).trans (combined_perm_aligned grid s hs hgnd hmem)
  have halign : (grid.map (fun g => (g, lookupVal g s))).Sorted keyLT :=
    aligned_sorted grid _ hg
  have hnd2 : (keysOf (sortByKey (s ++ missingRows grid s))).Nodup := by
    have hkp : (keysOf (sortByKey (s ++ missingRows grid s))).Perm
        (keysOf (grid.map (fun g => (g, lookupVal g s)))) :=
      hperm2.map Prod.fst
    rw [keysOf_map_pair] at hkp
    exact hkp.nodup_iff.mpr hgnd
  exact eq_of_perm_of_sorted_keyLT hperm2
    (pairwise_keyLT_of_le_nodup (sortByKey_sorted_le _) hnd2) halign

theorem cadence_dvd_pandasRound15 (t : Nat) : cadence ∣ pandasRound15 t := by
  rw [pandasRound15]
  split_ifs <;> exact dvd_mul_left _ _

theorem dedupSeries_keys_dvd {V : Type} (l : List (Nat × Option V)) :
    ∀ k ∈ keysOf (dedupSeries l), cadence ∣ k := by
  intro k hk
  rcases List.mem_map.mp hk with ⟨r, hr, rfl⟩
  have hr' : r ∈ roundSeries l := dedupByKey_subset _ r hr
  rcases List.mem_map.mp hr' with ⟨r₂, -, rfl⟩
  exact cadence_dvd_pandasRound15 r₂.1

theorem dedupSeries_keys_nodup {V : Type} (l : List (Nat × Option V)) :
    (keysOf (dedupSeries l)).Nodup :=
  keysOf_dedupGo_nodup [] (roundSeries l)

theorem dedupSeries_keys_mem_grid {V : Type} {l : List (Nat × Option V)}
    {a b : Nat} (ha : listMin (keysOf (dedupSeries l)) = some a)
    (hb : listMax (keysOf (dedupSeries l)) = some b) :
    ∀ r ∈ dedupSeries l, r.1 ∈ dateRange a b := by
  intro r hr
  have hk : r.1 ∈ keysOf (dedupSeries l) := List.mem_map.mpr ⟨r, hr, rfl⟩
  refine mem_dateRange_of (listMin_le ha _ hk) (listMax_ge hb _ hk) ?_
  exact Nat.dvd_sub' (dedupSeries_keys_dvd l _ hk)
    (dedupSeries_keys_dvd l _ (listMin_mem ha))

/-- Characterization of the pipeline: the regularized output is the
forward fill of the grid aligned with the deduplicated series. -/
theorem pipelineStep_char {V : Type} {l out : List (Nat × Option V)}
    {a b : Nat} (ha : listMin (keysOf (dedupSeries l)) = some a)
    (hb : listMax (keysOf (dedupSeries l)) = some b)
    (h : pipelineStep l = some out) :
    out = ffill none
      ((dateRange a b).map (fun g => (g, lookupVal g (dedupSeries l)))) := by
  simp only [pipelineStep, ha, hb] at h
  rw [combined_sorted_eq_aligned (dateRange a b) (dedupSeries l)
    (dedupSeries_keys_nodup l) (dateRange_pairwise_lt a b)
    (dedupSeries_keys_mem_grid ha hb)] at h
  rw [dedupByKey_eq_self _ (by
    rw [keysOf_ffill, keysOf_map_pair]
    exact dateRange_nodup a b)] at h
  exact (Option.some.injEq _ _ ▸ h).symm

theorem pipelineStep_keys {V : Type} {l out : List (Nat × Option V)}
    {a b : Nat} (ha : listMin (keysOf (dedupSeries l)) = some a)
    (hb : listMax (keysOf (dedupSeries l)) = some b)
    (h : pipelineStep l = some out) :
    keysOf out = dateRange a b := by
  rw [pipelineStep_char ha hb h, keysOf_ffill, keysOf_map_pair]

theorem pipelineStep_length {V : Type} {l out : List (Nat × Option V)}
    {a b : Nat} (ha : listMin (keysOf (dedupSeries l)) = some a)
    (hb : listMax (keysOf (dedupSeries l)) = some b)
    (h : pipelineStep l = some out) :
    out.length = (b - a) / cadence + 1 := by
  have hk := pipelineStep_keys ha hb h
  have : (keysOf out).length = out.length := List.length_map _ _
  rw [← this, hk, dateRange_length]

/-- C5: for a non-empty deduplicated series with minimum timestamp `a`
and maximum timestamp `b`, the regularized output has exactly
`1 + (b - a)/15min` rows, its timestamps are strictly ascending, and
each adjacent pair of output timestamps differs by exactly the
15-minute cadence. -/
theorem pipeline_grid_shape {V : Type} (l out : List (Nat × Option V))
    (a b : Nat) (h : pipelineStep l = some out)
    (ha : listMin (keysOf (dedupSeries l)) = some a)
    (hb : listMax (keysOf (dedupSeries l)) = some b) :
    out.length = 1 + (b - a) / cadence ∧
    out.Pairwise keyLT ∧
    (∀ i p q, out[i]? = some p → out[i + 1]? = some q →
      q.1 = p.1 + cadence) := by
  have hchar := pipelineStep_char ha hb h
  have hlen := pipelineStep_length ha hb h
  have hkeys := pipelineStep_keys ha hb h
  refine ⟨by omega, ?_, ?_⟩
  · have hpl : (List.map Prod.fst out).Pairwise (· < ·) := by
      have := dateRange_pairwise_lt a b
      rw [← hkeys] at this
      exact this
    have h2 : out.Pairwise (fun x y : Nat × Option V => x.1 < y.1) :=
      List.pairwise_map.mp hpl
    exact h2
  · intro i p q hp hq
    have hi1 : i + 1 < out.length := by
      by_contra hcon
      rw [List.getElem?_eq_none (by omega)] at hq
      cases hq
    have hklen : out.length = (b - a) / cadence + 1 := by omega
    have hp1 : p.1 = a + i * cadence := by
      rw [hchar, ffill_getElem?, List.getElem?_map,
        dateRange_getElem? (by omega)] at hp
      rw [Option.map_some'] at hp
      injection hp with hp'
      exact (congrArg Prod.fst hp').symm
    have hq1 : q.1 = a + (i + 1) * cadence := by
      rw [hchar, ffill_getElem?, List.getElem?_map,
        dateRange_getElem? (by omega)] at hq
      rw [Option.map_some'] at hq
      injection hq with hq'
      exact (congrArg Prod.fst hq').symm
    rw [hp1, hq1, Nat.succ_mul]
    omega

/-- Witness for `pipeline_grid_shape`: a two-record series spanning
30 minutes regularizes to three rows. -/
theorem pipeline_grid_shape_witness :
    ([((0 : Nat), some (1 : Int)), (900000000, some 1),
      (1800000000, some 2)] : List (Nat × Option Int)).length =
      1 + (1800000000 - 0) / cadence :=
  (pipeline_grid_shape
    [((1800000000 : Nat), some (2 : Int)), (0, some 1)]
    [((0 : Nat), some (1 : Int)), (900000000, some 1), (1800000000, some 2)]
    0 1800000000 (by decide) (by decide) (by decide)).1

theorem pandasRound15_fixed {t : Nat} (h : cadence ∣ t) :
    pandasRound15 t = t := by
  rcases h with ⟨k, rfl⟩
  have hc : cadence = 900000000 := rfl
  simp only [pandasRound15, hc]
  split_ifs <;> omega

theorem keysOf_dvd_of_mem_dateRange {a b g : Nat} (hdvd : cadence ∣ a)
    (hg : g ∈ dateRange a b) : cadence ∣ g := by
  rcases mem_dateRange.mp hg with ⟨k, -, rfl⟩
  exact Nat.dvd_add hdvd (Dvd.intro_left k rfl)

theorem roundSeries_fixed {V : Type} {out : List (Nat × Option V)}
    (hdvd : ∀ r ∈ out, cadence ∣ r.1) : roundSeries out = out := by
  rw [roundSeries]
  have : ∀ r ∈ out, (pandasRound15 r.1, r.2) = r := by
    intro r hr
    rw [pandasRound15_fixed (hdvd r hr)]
  rw [List.map_congr_left this]
  exact List.map_id' out

/-- C6: regularization is idempotent — running the rounding,
deduplication, grid-building, gap-filling and forward-fill step of
`process_csv` on its own output returns that output unchanged. -/
theorem pipeline_idempotent {V : Type} (l out : List (Nat × Option V))
    (h : pipelineStep l = some out) : pipelineStep out = some out := by
  rcases hma : listMin (keysOf (dedupSeries l)) with - | a
  · simp [pipelineStep, hma] at h
  rcases hmb : listMax (keysOf (dedupSeries l)) with - | b
  · simp [pipelineStep, hma, hmb] at h
  have hchar := pipelineStep_char hma hmb h
  have hkeys := pipelineStep_keys hma hmb h
  have hdvda : cadence ∣ a :=
    dedupSeries_keys_dvd l a (listMin_mem hma)
  have hab : a ≤ b := listMin_le hma b (listMax_mem hmb)
  have hdvdab : cadence ∣ (b - a) :=
    Nat.dvd_sub' (dedupSeries_keys_dvd l b (listMax_mem hmb)) hdvda
  have hdvdout : ∀ r ∈ out, cadence ∣ r.1 := by
    intro r hr
    have hk : r.1 ∈ dateRange a b := by
      rw [← hkeys]
      exact List.mem_map.mpr ⟨r, hr, rfl⟩
    exact keysOf_dvd_of_mem_dateRange hdvda hk
  have houtnd : (keysOf out).Nodup := by
    rw [hkeys]
    exact dateRange_nodup a b
  have hdedup : dedupSeries out = out := by
    rw [dedupSeries, roundSeries_fixed hdvdout, dedupByKey_eq_self _ houtnd]
  have hminout : listMin (keysOf out) = some a := by
    rw [hkeys]
    exact dateRange_listMin a b
  have hmaxout : listMax (keysOf out) = some b := by
    rw [hkeys]
    exact dateRange_listMax hab hdvdab
  have hmiss0 : missingRows (dateRange a b) out = [] := by
    rw [missingRows]
    have : (dateRange a b).filter (fun g => decide (¬ g ∈ keysOf out)) = [] := by
      refine List.filter_eq_nil_iff.mpr (fun g hg => ?_)
      simp only [decide_not, Bool.not_eq_true, decide_eq_false_iff_not,
        Decidable.not_not]
      rw [hkeys]
      simp [hg]
    rw [this, List.map_nil]
  have hsorted : out.Pairwise keyLT := by
    have hpl : (List.map Prod.fst out).Pairwise (· < ·) := by
      have := dateRange_pairwise_lt a b
      rw [← hkeys] at this
      exact this
    have h2 : out.Pairwise (fun x y : Nat × Option V => x.1 < y.1) :=
      List.pairwise_map.mp hpl
    exact h2
  have hffill : ffill none out = out := by
    rw [hchar, ffill_idem]
  simp only [pipelineStep, hdedup, hminout, hmaxout, hmiss0, List.append_nil,
    sortByKey_eq_self hsorted, hffill, dedupByKey_eq_self _ houtnd]

/-- Witness for `pipeline_idempotent`: reapplying the pipeline to a
concrete regularized output (built from an unsorted two-record input
with one gap) leaves it unchanged. -/
theorem pipeline_idempotent_witness :
    pipelineStep [((0 : Nat), some (7 : Int)), (900000000, some 7),
      (1800000000, some 9)] =
    some [((0 : Nat), some (7 : Int)), (900000000, some 7),
      (1800000000, some 9)] :=
  pipeline_idempotent [((1800000000 : Nat), some (9 : Int)), (0, some 7)]
    [((0 : Nat), some (7 : Int)), (900000000, some 7), (1800000000, some 9)]
    (by decide)

theorem pipeline_out_getElem {V : Type} {l out : List (Nat × Option V)}
    {a b : Nat} (ha : listMin (keysOf (dedupSeries l)) = some a)
    (hb : listMax (keysOf (dedupSeries l)) = some b)
    (h : pipelineStep l = some out) (i : Nat) (hi : i < out.length) :
    out[i]? = some (a + i * cadence,
      match lookupVal (a + i * cadence) (dedupSeries l) with
      | some x => some x
      | none => lastSome none
          ((((dateRange a b).map
              (fun g => (g, lookupVal g (dedupSeries l)))).take i).map
            Prod.snd)) := by
  have hlen := pipelineStep_length ha hb h
  rw [pipelineStep_char ha hb h, ffill_getElem?, List.getElem?_map,
    dateRange_getElem? (by omega)]
  rfl

theorem pipeline_out_observed {V : Type} {l out : List (Nat × Option V)}
    {a b : Nat} (ha : listMin (keysOf (dedupSeries l)) = some a)
    (hb : listMax (keysOf (dedupSeries l)) = some b)
    (h : pipelineStep l = some out)
    (hvals : ∀ r ∈ dedupSeries l, r.2.isSome) (i : Nat)
    (hi : i < out.length)
    (hobs : (a + i * cadence) ∈ keysOf (dedupSeries l)) :
    ∃ r, r ∈ dedupSeries l ∧ r.1 = a + i * cadence ∧
      lookupVal (a + i * cadence) (dedupSeries l) = r.2 ∧
      out[i]? = some r := by
  rcases lookupVal_of_mem hobs with ⟨r, hrs, hrk, hrv⟩
  rcases Option.isSome_iff_exists.mp (hvals r hrs) with ⟨x, hx⟩
  refine ⟨r, hrs, hrk, hrv, ?_⟩
  rcases r with ⟨rk, rv⟩
  simp only at hrk hrv hx
  subst hrk
  subst hx
  rw [pipeline_out_getElem ha hb h i hi, hrv]

theorem pipeline_out_unobserved {V : Type} {l out : List (Nat × Option V)}
    {a b : Nat} (ha : listMin (keysOf (dedupSeries l)) = some a)
    (hb : listMax (keysOf (dedupSeries l)) = some b)
    (h : pipelineStep l = some out) (i : Nat) (hi : i < out.length)
    (hnot : ¬ (a + i * cadence) ∈ keysOf (dedupSeries l)) :
    out[i]? = some (a + i * cadence, lastSome none
      ((((dateRange a b).map
          (fun g => (g, lookupVal g (dedupSeries l)))).take i).map
        Prod.snd)) := by
  rw [pipeline_out_getElem ha hb h i hi, lookupVal_eq_none hnot]

theorem aligned_vals_getElem? {V : Type} (s : List (Nat × Option V))
    (a b i k : Nat) (hk : k < i) (hkb : k < (b - a) / cadence + 1) :
    ((((dateRange a b).map (fun g => (g, lookupVal g s))).take i).map
      Prod.snd)[k]? = some (lookupVal (a + k * cadence) s) := by
  rw [List.getElem?_map, List.getElem?_take, if_pos hk, List.getElem?_map,
    dateRange_getElem? hkb]
  rfl

theorem dedupSeries_vals_isSome {V : Type} {l : List (Nat × Option V)}
    (hvals : ∀ r ∈ l, r.2.isSome) :
    ∀ r ∈ dedupSeries l, r.2.isSome := by
  intro r hr
  rcases List.mem_map.mp (dedupByKey_subset _ r hr) with ⟨r₂, hr₂, rfl⟩
  exact hvals r₂ hr₂

/-- C4 counterexample: a single parsed row whose Balance text failed
numeric conversion (NaN, via `errors="coerce"`) regularizes to an
output whose only row still has a missing Balance — the regularized
output is not free of missing values, and its first grid point carries
no (non-missing) value. -/
theorem pipeline_missing_balance_cex :
    pipelineStep [((0 : Nat), (none : Option Int))] =
      some [((0 : Nat), (none : Option Int))] ∧
    ((none : Option Int)).isSome = false := by
  decide

/-- C4 amended: provided every row of the parsed series has a present
(successfully converted, non-NaN) Balance, the regularized output has
no missing Balance values; its first row is literally an observed
record of the rounded-deduplicated series; rows at observed grid
points carry their own record; and every row at an unobserved grid
point carries the value of the nearest preceding row whose grid point
is observed. -/
theorem pipeline_forward_fill {V : Type} (l out : List (Nat × Option V))
    (h : pipelineStep l = some out) (hvals : ∀ r ∈ l, r.2.isSome) :
    (∀ p ∈ out, p.2.isSome) ∧
    (∀ (p : Nat × Option V), out[0]? = some p → p ∈ dedupSeries l) ∧
    (∀ (i : Nat) (p : Nat × Option V), out[i]? = some p → p.1 ∈ keysOf (dedupSeries l) →
      p ∈ dedupSeries l) ∧
    (∀ (i : Nat) (p : Nat × Option V), out[i]? = some p → ¬ p.1 ∈ keysOf (dedupSeries l) →
      ∃ (j : Nat) (q : Nat × Option V), j < i ∧ out[j]? = some q ∧ q.1 ∈ keysOf (dedupSeries l) ∧
        p.2 = q.2 ∧
        (∀ (k : Nat) (r₂ : Nat × Option V), j < k → k < i → out[k]? = some r₂ →
          ¬ r₂.1 ∈ keysOf (dedupSeries l))) := by
  rcases hma : listMin (keysOf (dedupSeries l)) with - | a
  · simp [pipelineStep, hma] at h
  rcases hmb : listMax (keysOf (dedupSeries l)) with - | b
  · simp [pipelineStep, hma, hmb] at h
  have hvals' := dedupSeries_vals_isSome hvals
  have hlen := pipelineStep_length hma hmb h
  have ha0 : a ∈ keysOf (dedupSeries l) := listMin_mem hma
  have hP0 : (a + 0 * cadence) ∈ keysOf (dedupSeries l) := by
    simpa using ha0
  have hkey : ∀ (i : Nat) (p : Nat × Option V), out[i]? = some p →
      i < out.length ∧ p.1 = a + i * cadence := by
    intro i p hp
    have hi : i < out.length := by
      by_contra hc
      rw [List.getElem?_eq_none (by omega)] at hp
      cases hp
    refine ⟨hi, ?_⟩
    rw [pipeline_out_getElem hma hmb h i hi] at hp
    injection hp with hp'
    exact (congrArg Prod.fst hp').symm
  have hobs3 : ∀ (i : Nat) (p : Nat × Option V), out[i]? = some p → p.1 ∈ keysOf (dedupSeries l) →
      p ∈ dedupSeries l := by
    intro i p hp hpk
    rcases hkey i p hp with ⟨hi, hp1⟩
    rw [hp1] at hpk
    rcases pipeline_out_observed hma hmb h hvals' i hi hpk with
      ⟨r, hrs, -, -, hout⟩
    rw [hout] at hp
    injection hp with hp'
    rw [← hp']
    exact hrs
  have hfirst : ∀ (p : Nat × Option V), out[0]? = some p → p ∈ dedupSeries l := by
    intro p hp
    rcases hkey 0 p hp with ⟨-, hp1⟩
    refine hobs3 0 p hp ?_
    rw [hp1]
    exact hP0
  have hcarry : ∀ (i : Nat) (p : Nat × Option V), out[i]? = some p → ¬ p.1 ∈ keysOf (dedupSeries l) →
      ∃ (j : Nat) (q : Nat × Option V), j < i ∧ out[j]? = some q ∧ q.1 ∈ keysOf (dedupSeries l) ∧
        p.2 = q.2 ∧
        (∀ (k : Nat) (r₂ : Nat × Option V), j < k → k < i → out[k]? = some r₂ →
          ¬ r₂.1 ∈ keysOf (dedupSeries l)) := by
    intro i p hp hnot
    rcases hkey i p hp with ⟨hi, hp1⟩
    have hnot' : ¬ (a + i * cadence) ∈ keysOf (dedupSeries l) := by
      rw [← hp1]
      exact hnot
    have hi0 : i ≠ 0 := by
      intro hEq
      subst hEq
      exact hnot' hP0
    have hJle : Nat.findGreatest
        (fun j => (a + j * cadence) ∈ keysOf (dedupSeries l)) (i - 1) ≤
        i - 1 := Nat.findGreatest_le _
    have hPJ : (a + Nat.findGreatest
        (fun j => (a + j * cadence) ∈ keysOf (dedupSeries l)) (i - 1) *
        cadence) ∈ keysOf (dedupSeries l) :=
      Nat.findGreatest_spec (P := fun j => (a + j * cadence) ∈ keysOf (dedupSeries l))
        (m := 0) (by omega) hP0
    have hJlt : Nat.findGreatest
        (fun j => (a + j * cadence) ∈ keysOf (dedupSeries l)) (i - 1) <
        i := by omega
    rcases pipeline_out_observed hma hmb h hvals'
      (Nat.findGreatest (fun j => (a + j * cadence) ∈
        keysOf (dedupSeries l)) (i - 1)) (by omega) hPJ with
      ⟨q, hqs, hqk, hqlook, houtJ⟩
    rcases Option.isSome_iff_exists.mp (hvals' q hqs) with ⟨x, hx⟩
    refine ⟨_, q, hJlt, houtJ, by rw [hqk]; exact hPJ, ?_, ?_⟩
    · rw [pipeline_out_unobserved hma hmb h i hi hnot'] at hp
      injection hp with hp'
      rw [← hp']
      have hlast : lastSome none
          ((((dateRange a b).map
              (fun g => (g, lookupVal g (dedupSeries l)))).take i).map
            Prod.snd) = some x := by
        refine lastSome_last _ _ (Nat.findGreatest
          (fun j => (a + j * cadence) ∈ keysOf (dedupSeries l)) (i - 1))
          x ?_ ?_
        · rw [aligned_vals_getElem? (dedupSeries l) a b i _ hJlt (by omega),
            hqlook, hx]
        · intro k hJk w hw
          have hklen : k < ((((dateRange a b).map
              (fun g => (g, lookupVal g (dedupSeries l)))).take i).map
                Prod.snd).length := by
            by_contra hc
            rw [List.getElem?_eq_none (by omega)] at hw
            cases hw
          rw [List.length_map, List.length_take, List.length_map,
            dateRange_length] at hklen
          have hki : k < i := by omega
          have hkb : k < (b - a) / cadence + 1 := by omega
          rw [aligned_vals_getElem? (dedupSeries l) a b i k hki hkb] at hw
          injection hw with hw'
          have hnotk : ¬ (a + k * cadence) ∈ keysOf (dedupSeries l) :=
            Nat.findGreatest_is_greatest
            (P := fun j => (a + j * cadence) ∈ keysOf (dedupSeries l))
            hJk (by omega)
          rw [← hw']
          exact lookupVal_eq_none hnotk
      rw [hlast, hx]
    · intro k r₂ hJk hki houtk
      rcases hkey k r₂ houtk with ⟨-, hr₂1⟩
      rw [hr₂1]
      exact Nat.findGreatest_is_greatest
            (P := fun j => (a + j * cadence) ∈ keysOf (dedupSeries l))
            hJk (by omega)
  have hnomiss : ∀ p ∈ out, p.2.isSome := by
    intro p hp
    rcases List.mem_iff_getElem?.mp hp with ⟨i, hip⟩
    by_cases hobs : p.1 ∈ keysOf (dedupSeries l)
    · exact hvals' p (hobs3 i p hip hobs)
    · rcases hcarry i p hip hobs with ⟨j, q, -, houtJ, hqk, hpq, -⟩
      rw [hpq]
      exact hvals' q (hobs3 j q houtJ hqk)
  exact ⟨hnomiss, hfirst, hobs3, hcarry⟩

/-- Witness for `pipeline_forward_fill`: the regularized output of a
two-record series with one gap contains no missing Balance. -/
theorem pipeline_forward_fill_witness :
    (((900000000 : Nat), some (5 : Int)) : Nat × Option Int).2.isSome = true :=
  (pipeline_forward_fill [((0 : Nat), some (5 : Int)), (1800000000, some 6)]
    [((0 : Nat), some (5 : Int)), (900000000, some 5), (1800000000, some 6)]
    (by decide) (by decide)).1 ((900000000 : Nat), some (5 : Int)) (by decide)

/- Helper: on a duplicate-free-key table, filtering by a key yields the
`find?` result as a singleton. -/

theorem filter_key_of_nodup {V : Type} {m : List (Nat × V)}
    (hnd : (keysOf m).Nodup) (t : Nat) :
    m.filter (fun r => r.1 == t) =
      match m.find? (fun r => r.1 == t) with
      | some r => [r]
      | none => [] := by
  induction m with
  | nil => rfl
  | cons r rest ih =>
    simp only [keysOf, List.map_cons, List.nodup_cons] at hnd
    by_cases hrt : r.1 = t
    · rw [List.filter_cons_of_pos (by simp [hrt]),
        List.find?_cons_of_pos _ (by simp [hrt])]
      have hrest : rest.filter (fun r => r.1 == t) = [] := by
        refine List.filter_eq_nil_iff.mpr (fun x hx => ?_)
        simp only [beq_iff_eq]
        intro hxt
        exact hnd.1 (List.mem_map.mpr ⟨x, hx, by rw [hxt, hrt]⟩)
      rw [hrest]
    · rw [List.filter_cons_of_neg (by simp [hrt]),
        List.find?_cons_of_neg _ (by simp [hrt])]
      exact ih hnd.2

/-- C9: when two or more parsed rows round to the same 15-minute grid
point `t`, the deduplicated series contains exactly one record at `t`,
and it is the first such row in original input order (the `find?`
result over the rounded rows) — values are never averaged or summed,
they are simply the first row's. -/
theorem dedup_keeps_first {V : Type} (l : List (Nat × Option V)) (t : Nat)
    (hdup : 2 ≤ ((roundSeries l).filter (fun r => r.1 == t)).length) :
    ∃ v, (roundSeries l).find? (fun r => r.1 == t) = some (t, v) ∧
      (dedupSeries l).filter (fun r => r.1 == t) = [(t, v)] := by
  rcases hfe : (roundSeries l).find? (fun r => r.1 == t) with - | r
  · have : (roundSeries l).filter (fun r => r.1 == t) = [] := by
      refine List.filter_eq_nil_iff.mpr (fun x hx => ?_)
      have := List.find?_eq_none.mp hfe x hx
      simpa using this
    rw [this] at hdup
    simp at hdup
  · have hrt : r.1 = t := by
      have := List.find?_some hfe
      simpa using this
    have hr2 : r = (t, r.2) := by rw [← hrt]
    rw [hr2] at hfe
    refine ⟨r.2, hfe, ?_⟩
    rw [dedupSeries, filter_key_of_nodup (keysOf_dedupByKey_nodup _) t,
      dedupByKey_find?, hfe]

/-- Witness for `dedup_keeps_first`: two rows (0 µs and 1 µs) round to
grid point 0; the deduplicated series keeps only the first row's value. -/
theorem dedup_keeps_first_witness :
    (dedupSeries [((0 : Nat), some (1 : Int)), (1, some 2)]).filter
      (fun r => r.1 == 0) = [(0, some 1)] := by
  rcases dedup_keeps_first [((0 : Nat), some (1 : Int)), (1, some 2)] 0
    (by decide) with ⟨v, hf, hfil⟩
  have h3 : some ((0 : Nat), v) = some ((0 : Nat), some (1 : Int)) :=
    hf.symm.trans (by decide)
  injection h3 with h4
  rw [hfil, h4]

/- Helper lemmas for the merge. -/

theorem leftMerge_eq {A B : Type} (ta : List (Nat × A)) (tb : List (Nat × B))
    (hnd : (keysOf tb).Nodup) :
    leftMerge ta tb = ta.map (fun a =>
      (a.1, a.2, Option.map Prod.snd (tb.find? (fun b => b.1 == a.1)))) := by
  induction ta with
  | nil => rfl
  | cons a rest ih =>
    rw [leftMerge, List.flatMap_cons, List.map_cons]
    rw [leftMerge] at ih
    rw [ih, filter_key_of_nodup hnd a.1]
    rcases hf : tb.find? (fun b => b.1 == a.1) with - | r <;> rw [hf] <;> rfl

theorem filter_not_length {α : Type} (p : α → Bool) (l : List α) :
    (l.filter (fun a => !(p a))).length + (l.filter p).length = l.length := by
  induction l with
  | nil => rfl
  | cons x rest ih =>
    cases hp : p x <;> simp [List.filter_cons, hp] <;> omega

/-- C7: the merge is a left outer join keyed on the primary table's
timestamp: for a secondary table with duplicate-free timestamps, the
output is the sort of the primary rows each paired with the matching
secondary value (present exactly when an exact timestamp match
exists); every primary row is preserved and the row count equals the
primary's; in the 10-vs-10 scenario with exactly 4 timestamps in
common, the output has exactly 10 rows, 6 of which carry no secondary
value. -/
theorem merge_left_outer_join {A B : Type} (nA nB : String)
    (ta : List (Nat × A)) (tb : List (Nat × B))
    (hB : (keysOf tb).Nodup) (hA : ta ≠ []) :
    ∃ out, merge_h1_g2_files nA nB (some ta) (some tb) = some out ∧
      out = sortByKey (ta.map (fun a =>
        (a.1, a.2, Option.map Prod.snd (tb.find? (fun b => b.1 == a.1))))) ∧
      out.length = ta.length ∧
      (∀ a ∈ ta, (a.1, a.2,
        Option.map Prod.snd (tb.find? (fun b => b.1 == a.1))) ∈ out) ∧
      (∀ a ∈ ta,
        ((tb.find? (fun b => b.1 == a.1)).isSome ↔ a.1 ∈ keysOf tb)) ∧
      (ta.length = 10 →
        ((keysOf ta).filter (fun t => decide (t ∈ keysOf tb))).length = 4 →
        out.length = 10 ∧
        (out.filter (fun r => r.2.2.isNone)).length = 6) := by
  have hperm : (sortByKey (leftMerge ta tb)).Perm (leftMerge ta tb) :=
    sortByKey_perm _
  have hmlen : (sortByKey (leftMerge ta tb)).length = ta.length := by
    rw [hperm.length_eq, leftMerge_eq ta tb hB, List.length_map]
  have hne : ¬ (sortByKey (leftMerge ta tb)).length = 0 := by
    rw [hmlen]
    intro hc
    exact hA (List.length_eq_zero.mp hc)
  refine ⟨sortByKey (leftMerge ta tb), ?_, ?_, hmlen, ?_, ?_, ?_⟩
  · rw [merge_h1_g2_files]
    simp only [if_neg hne]
  · rw [leftMerge_eq ta tb hB]
  · intro a ha
    rw [leftMerge_eq ta tb hB]
    exact (sortByKey_perm _).mem_iff.mpr (List.mem_map.mpr ⟨a, ha, rfl⟩)
  · intro a ha
    rw [List.find?_isSome]
    constructor
    · rintro ⟨b, hb, hba⟩
      exact List.mem_map.mpr ⟨b, hb, by simpa using hba⟩
    · intro hmem
      rcases List.mem_map.mp hmem with ⟨b, hb, hba⟩
      exact ⟨b, hb, by simp [hba]⟩
  · intro hlen10 hcommon
    refine ⟨by omega, ?_⟩
    have hcount : ((sortByKey (leftMerge ta tb)).filter
        (fun r => r.2.2.isNone)).length =
        ((ta.map (fun a => (a.1, a.2, Option.map Prod.snd
          (tb.find? (fun b => b.1 == a.1))))).filter
          (fun r => r.2.2.isNone)).length := by
      rw [← leftMerge_eq ta tb hB, ← List.countP_eq_length_filter,
        ← List.countP_eq_length_filter]
      exact hperm.countP_eq _
    rw [hcount, ← List.countP_eq_length_filter, List.countP_map]
    have hfun : ∀ a ∈ ta,
        ((fun r : Nat × A × Option B => r.2.2.isNone) ∘ (fun a =>
          (a.1, a.2, Option.map Prod.snd
            (tb.find? (fun b => b.1 == a.1))))) a =
        !(decide (a.1 ∈ keysOf tb)) := by
      intro a ha
      simp only [Function.comp]
      rcases hf : tb.find? (fun b => b.1 == a.1) with - | r
      · have hnm : ¬ a.1 ∈ keysOf tb := by
          intro hmem
          rcases find?_key_mem hmem with ⟨r, hrf, -, -⟩
          rw [hf] at hrf
          cases hrf
        rw [hf, decide_eq_false hnm]
        rfl
      · have hm : a.1 ∈ keysOf tb := by
          have hrt : r.1 = a.1 := by
            have := List.find?_some hf
            simpa using this
          exact List.mem_map.mpr ⟨r, List.mem_of_find?_eq_some hf, hrt⟩
        rw [hf, decide_eq_true hm]
        rfl
    have hcp : List.countP ((fun r : Nat × A × Option B => r.2.2.isNone) ∘
        (fun a : Nat × A => (a.1, a.2, Option.map Prod.snd
          (tb.find? (fun b => b.1 == a.1))))) ta =
        List.countP (fun a : Nat × A => !(decide (a.1 ∈ keysOf tb))) ta :=
      List.countP_congr (fun a ha => by rw [hfun a ha])
    rw [hcp]
    have hkc : List.countP (fun a : Nat × A =>
        !(decide (a.1 ∈ keysOf tb))) ta =
        List.countP (fun t => !(decide (t ∈ keysOf tb))) (keysOf ta) := by
      rw [show keysOf ta = ta.map Prod.fst from rfl, List.countP_map]
      rfl
    rw [hkc, List.countP_eq_length_filter]
    have := filter_not_length (fun t => decide (t ∈ keysOf tb)) (keysOf ta)
    have hkl : (keysOf ta).length = 10 := by
      rw [keysOf, List.length_map]
      exact hlen10
    omega

/-- Witness for `merge_left_outer_join`: 10 primary rows against 10
secondary rows sharing exactly the 4 timestamps 6, 7, 8, 9 merge into
10 rows, 6 of them with no secondary value. -/
theorem merge_left_outer_join_witness :
    Option.map (fun out : List (Nat × Int × Option Int) => (out.length,
      (out.filter (fun r => r.2.2.isNone)).length))
      (merge_h1_g2_files "H1_CT3_Pd2.csv" "G2_CT3_Pd2.csv"
        (some [((0 : Nat), (0 : Int)), (1, 1), (2, 2), (3, 3), (4, 4),
          (5, 5), (6, 6), (7, 7), (8, 8), (9, 9)])
        (some [((6 : Nat), (106 : Int)), (7, 107), (8, 108), (9, 109),
          (10, 110), (11, 111), (12, 112), (13, 113), (14, 114),
          (15, 115)])) = some (10, 6) := by
  rcases merge_left_outer_join "H1_CT3_Pd2.csv" "G2_CT3_Pd2.csv"
    [((0 : Nat), (0 : Int)), (1, 1), (2, 2), (3, 3), (4, 4),
      (5, 5), (6, 6), (7, 7), (8, 8), (9, 9)]
    [((6 : Nat), (106 : Int)), (7, 107), (8, 108), (9, 109),
      (10, 110), (11, 111), (12, 112), (13, 113), (14, 114), (15, 115)]
    (by decide) (by decide) with ⟨out, hm, -, -, -, -, hsc⟩
  rcases hsc (by decide) (by decide) with ⟨h1, h2⟩
  rw [hm, Option.map_some', h1, h2]

/-- C1: the code defines `validate_file_compatibility` (it correctly
rejects the mismatched pair below), but `merge_h1_g2_files` never calls
it: handed those very filenames together with readable tables, the
merge still proceeds and returns merged data instead of refusing — a
compatibility failure is silently ignored, contradicting the claim
that it is always fatal to the merge. -/
theorem merge_ignores_compatibility :
    validate_file_compatibility "H1_CT3_Pd2.csv" "G2_CT5_Pd2.csv" = false ∧
    merge_h1_g2_files "H1_CT3_Pd2.csv" "G2_CT5_Pd2.csv"
      (some [((0 : Nat), (0 : Int))]) (some ([] : List (Nat × Int))) =
      some [(0, 0, none)] := by
  decide

/-- C8 counterexample: a column mixing the two layouts — row 0 read in
the '.' family (10:07:00), row 1 read in the '-' family (10:08:00) —
comes back with *both* rows re-serialized in the '.' family chosen from
row 0: the '-' row does not round-trip to its own layout family. -/
theorem round_time_column_mixed_cex :
    round_time_column [⟨SepStyle.dot, 36420000000⟩,
      ⟨SepStyle.dash, 36480000000⟩] =
      [⟨SepStyle.dot, 36000000000⟩, ⟨SepStyle.dot, 36900000000⟩] ∧
    SepStyle.dot ≠ SepStyle.dash := by
  decide

/-- C8 amended: `round_time_column` re-serializes *every* row of the
column in the separator layout family of the table's first processed
row (with the instant rounded by `round_time_to_nearest_15min`) — one
table-wide format, not each row's own layout family. -/
theorem round_time_column_first_row_format (cells : List TimeText)
    (c0 : TimeText) (rest : List TimeText) (hc : cells = c0 :: rest)
    (i : Nat) (c : TimeText) (hi : cells[i]? = some c) :
    (round_time_column cells)[i]? =
      some ⟨c0.sep, round_time_to_nearest_15min c.instant⟩ := by
  subst hc
  simp only [round_time_column]
  rw [List.getElem?_map, hi, Option.map_some']

/-- Witness for `round_time_column_first_row_format` at the mixed
column's second row: it is re-serialized with the first row's '.'
separator. -/
theorem round_time_column_first_row_format_witness :
    (round_time_column [⟨SepStyle.dot, 36420000000⟩,
      ⟨SepStyle.dash, 36480000000⟩])[1]? =
      some ⟨SepStyle.dot, round_time_to_nearest_15min 36480000000⟩ :=
  round_time_column_first_row_format
    [⟨SepStyle.dot, 36420000000⟩, ⟨SepStyle.dash, 36480000000⟩]
    ⟨SepStyle.dot, 36420000000⟩ [⟨SepStyle.dash, 36480000000⟩] rfl
    1 ⟨SepStyle.dash, 36480000000⟩ rfl

/-- C10: `validate_file_compatibility` returns true exactly when both
filenames yield an extractable `(CT…, Pd…)` pair under the
`(?:H1|G2).*?(CT\d+)_(Pd\d+)` pattern and the two pairs coincide; in
particular it rejects `H1_CT3_Pd2.csv` against `G2_CT5_Pd2.csv` (CT
differs) and accepts it against `G2_CT3_Pd2.csv`. -/
theorem validate_compatibility_spec :
    (∀ a b : String, validate_file_compatibility a b = true ↔
      (∃ p, extract_identifiers a = some p ∧
        extract_identifiers b = some p)) ∧
    validate_file_compatibility "H1_CT3_Pd2.csv" "G2_CT5_Pd2.csv" = false ∧
    validate_file_compatibility "H1_CT3_Pd2.csv" "G2_CT3_Pd2.csv" = true := by
  refine ⟨?_, by decide, by decide⟩
  intro a b
  rcases ha : extract_identifiers a with - | pa <;>
    rcases hb : extract_identifiers b with - | pb <;>
    simp only [validate_file_compatibility, ha, hb]
  · simp
  · simp
  · simp
  · constructor
    · intro hEq
      exact ⟨pa, rfl, by rw [beq_iff_eq] at hEq; rw [hEq]⟩
    · rintro ⟨p, hpa, hpb⟩
      injection hpa with hpa'
      injection hpb with hpb'
      rw [beq_iff_eq, hpa', hpb']
